/-
Verification of the changelog document core against its specification.

The visible entry point of the repository is `src/main.rs`; the changelog core
(markdown parser, Document/section index, release engine, serializer) lives
in modules whose sources are not in the repository snapshot, so those parts
are modelled from the descriptions in the specification itself (each such definition
is marked `Modelled from the spec:`).  Strings are modelled as `List Char`,
documents as `List Node`.
-/
import Mathlib

namespace Changelog

/-! ### Generic list lemmas used throughout -/

theorem takeWhile_append_cons {α : Type} (p : α → Bool) (xs : List α) (y : α) (ys : List α)
    (hxs : ∀ x ∈ xs, p x = true) (hy : p y = false) :
    (xs ++ y :: ys).takeWhile p = xs := by
  induction xs with
  | nil => simp [List.takeWhile_cons, hy]
  | cons a as ih =>
    have ha : p a = true := hxs a (by simp)
    simp only [List.cons_append, List.takeWhile_cons, ha, if_true]
    rw [ih (fun x hx => hxs x (by simp [hx]))]

theorem dropWhile_append_cons {α : Type} (p : α → Bool) (xs : List α) (y : α) (ys : List α)
    (hxs : ∀ x ∈ xs, p x = true) (hy : p y = false) :
    (xs ++ y :: ys).dropWhile p = y :: ys := by
  induction xs with
  | nil => simp [List.dropWhile_cons, hy]
  | cons a as ih =>
    have ha : p a = true := hxs a (by simp)
    simp only [List.cons_append, List.dropWhile_cons, ha, if_true]
    exact ih (fun x hx => hxs x (by simp [hx]))

theorem takeWhile_append_all {α : Type} (p : α → Bool) (xs ys : List α)
    (hxs : ∀ x ∈ xs, p x = true) :
    (xs ++ ys).takeWhile p = xs ++ ys.takeWhile p := by
  induction xs with
  | nil => simp
  | cons a as ih =>
    have ha : p a = true := hxs a (by simp)
    simp only [List.cons_append, List.takeWhile_cons, ha, if_true]
    rw [ih (fun x hx => hxs x (by simp [hx]))]

theorem dropWhile_append_all {α : Type} (p : α → Bool) (xs ys : List α)
    (hxs : ∀ x ∈ xs, p x = true) :
    (xs ++ ys).dropWhile p = ys.dropWhile p := by
  induction xs with
  | nil => simp
  | cons a as ih =>
    have ha : p a = true := hxs a (by simp)
    simp only [List.cons_append, List.dropWhile_cons, ha, if_true]
    exact ih (fun x hx => hxs x (by simp [hx]))

theorem dropWhile_idem {α : Type} (p : α → Bool) (l : List α) :
    (l.dropWhile p).dropWhile p = l.dropWhile p := by
  induction l with
  | nil => simp
  | cons a as ih =>
    by_cases h : p a = true
    · simp [List.dropWhile_cons, h, ih]
    · simp only [Bool.not_eq_true] at h
      simp [List.dropWhile_cons, h]

theorem exists_append_dropWhile {α : Type} (p : α → Bool) (l : List α) :
    ∃ t, l = t ++ l.dropWhile p := by
  induction l with
  | nil => exact ⟨[], rfl⟩
  | cons a as ih =>
    by_cases h : p a = true
    · obtain ⟨t, ht⟩ := ih
      refine ⟨a :: t, ?_⟩
      rw [List.dropWhile_cons_of_pos h, List.cons_append]
      exact congrArg (a :: ·) ht
    · simp only [Bool.not_eq_true] at h
      exact ⟨[], by simp [List.dropWhile_cons, h]⟩

theorem dropWhile_eq_self_head {α : Type} (p : α → Bool) (a : α) (l : List α)
    (h : (a :: l).dropWhile p = a :: l) : p a = false := by
  by_cases hp : p a = true
  · rw [List.dropWhile_cons_of_pos hp] at h
    have := congrArg List.length h
    have hle : (l.dropWhile p).length ≤ l.length := (List.dropWhile_sublist p).length_le
    simp at this
    omega
  · simpa using hp

/-! ### Lines -/

/-- Modelled from the spec: a whitespace character for the regex class backslash-s of the parser
(the model is line-based, so a newline never occurs inside a line). -/
def isWs (c : Char) : Bool := c == ' ' || c == '\t' || c == '\r'

/-- Modelled from the spec: trim leading whitespace. -/
def ltrim (l : List Char) : List Char := l.dropWhile isWs

/-- Modelled from the spec: trim trailing whitespace. -/
def rtrim (l : List Char) : List Char := (l.reverse.dropWhile isWs).reverse

/-- Modelled from the spec: surrounding-whitespace trim, used for heading text. -/
def trim (l : List Char) : List Char := rtrim (ltrim l)

theorem ltrim_idem (l : List Char) : ltrim (ltrim l) = ltrim l :=
  dropWhile_idem isWs l

theorem rtrim_idem (l : List Char) : rtrim (rtrim l) = rtrim l := by
  unfold rtrim
  rw [List.reverse_reverse, dropWhile_idem]

theorem ltrim_rtrim (l : List Char) (h : ltrim l = l) : ltrim (rtrim l) = rtrim l := by
  obtain ⟨t, ht⟩ := exists_append_dropWhile isWs l.reverse
  have hmain : l = rtrim l ++ t.reverse := by
    have := congrArg List.reverse ht
    simpa [rtrim] using this
  cases hr : rtrim l with
  | nil => simp [ltrim]
  | cons d ds =>
    cases l with
    | nil => simp [rtrim] at hr
    | cons a as =>
      have hd : d = a := by
        rw [hr] at hmain
        simpa using congrArg (fun x => x.head?) hmain.symm
      have ha : isWs a = false := dropWhile_eq_self_head isWs a as h
      rw [hd]
      simp [ltrim, List.dropWhile_cons, ha]

theorem trim_idem (l : List Char) : trim (trim l) = trim l := by
  unfold trim
  rw [ltrim_rtrim (ltrim l) (ltrim_idem l), rtrim_idem]

theorem ltrim_cons_ws (c : Char) (l : List Char) (h : isWs c = true) :
    ltrim (c :: l) = ltrim l := by
  simp [ltrim, List.dropWhile_cons, h]

/-- Modelled from the spec: split raw text into lines at newline characters
(a trailing newline yields a final empty line, matching line-based scanning). -/
def splitLines : List Char → List (List Char)
  | [] => [[]]
  | c :: rest =>
    if c = '\n' then [] :: splitLines rest
    else
      match splitLines rest with
      | [] => [[c]]
      | l :: ls => (c :: l) :: ls

/-- Modelled from the spec: join lines with newline characters. -/
def joinLines : List (List Char) → List Char
  | [] => []
  | [l] => l
  | l :: l2 :: ls => l ++ '\n' :: joinLines (l2 :: ls)

theorem splitLines_ne_nil (t : List Char) : splitLines t ≠ [] := by
  cases t with
  | nil => simp [splitLines]
  | cons c rest =>
    simp only [splitLines]
    by_cases h : c = '\n'
    · simp [h]
    · simp only [h, if_false]
      cases splitLines rest <;> simp

theorem mem_splitLines_no_newline (t : List Char) :
    ∀ l ∈ splitLines t, '\n' ∉ l := by
  induction t with
  | nil => intro l hl; simp [splitLines] at hl; simp [hl]
  | cons c rest ih =>
    intro l hl
    by_cases h : c = '\n'
    · simp only [splitLines, h, if_pos] at hl
      rcases List.mem_cons.mp hl with h1 | h1
      · simp [h1]
      · exact ih l h1
    · cases hsplit : splitLines rest with
      | nil => exact absurd hsplit (splitLines_ne_nil rest)
      | cons m ms =>
        simp only [splitLines, h, if_false, hsplit] at hl
        rcases List.mem_cons.mp hl with h1 | h1
        · subst h1
          intro hmem
          rcases List.mem_cons.mp hmem with h2 | h2
          · exact h h2.symm
          · exact ih m (by rw [hsplit]; exact List.mem_cons_self m ms) h2
        · exact ih l (by rw [hsplit]; exact List.mem_cons_of_mem m h1)

theorem splitLines_no_newline (l : List Char) (h : '\n' ∉ l) :
    splitLines l = [l] := by
  induction l with
  | nil => rfl
  | cons c rest ih =>
    have hc : ¬ (c = '\n') := fun hc => h (by simp [hc])
    have hrest : '\n' ∉ rest := fun hm => h (by simp [hm])
    simp only [splitLines, hc, if_false, ih hrest]

theorem splitLines_append_newline (l t : List Char) (h : '\n' ∉ l) :
    splitLines (l ++ '\n' :: t) = l :: splitLines t := by
  induction l with
  | nil => simp [splitLines]
  | cons c rest ih =>
    have hc : ¬ (c = '\n') := fun hc => h (by simp [hc])
    have hrest : '\n' ∉ rest := fun hm => h (by simp [hm])
    simp only [List.cons_append, splitLines, hc, if_false, List.append_eq, ih hrest]

theorem splitLines_joinLines (ls : List (List Char)) (hne : ls ≠ [])
    (h : ∀ l ∈ ls, '\n' ∉ l) : splitLines (joinLines ls) = ls := by
  induction ls with
  | nil => exact absurd rfl hne
  | cons l rest ih =>
    cases rest with
    | nil => exact splitLines_no_newline l (h l (by simp))
    | cons l2 ls2 =>
      rw [joinLines, splitLines_append_newline l _ (h l (by simp))]
      rw [ih (by simp) (fun m hm => h m (by simp [hm]))]

/-! ### The AST node vocabulary (spec section 3) -/

/-- Modelled from the spec: the `Node` tagged variant of the missing
`markdown::ast` module — headings, list items, reference link definitions,
blank lines, and verbatim raw lines. -/
inductive Node : Type where
  | heading (level : Nat) (text : List Char)
  | listItem (text : List Char)
  | linkDefinition (label : List Char) (url : List Char)
  | blank
  | raw (text : List Char)
deriving DecidableEq, Repr

/-! ### Markdown parser (spec section 4.1) -/

/-- Modelled from the spec: a line matching the regular expression
#-{1,6} whitespace anything becomes a heading whose level is the number of
leading hash marks and whose text is the trimmed remainder. -/
def parseHeading (l : List Char) : Option Node :=
  let hashes := l.takeWhile (· == '#')
  let rest := l.dropWhile (· == '#')
  if 1 ≤ hashes.length ∧ hashes.length ≤ 6 then
    match rest with
    | c :: cs => if isWs c then some (.heading hashes.length (trim (c :: cs))) else none
    | [] => none
  else none

/-- Modelled from the spec: a line matching optional whitespace, a dash,
whitespace, and a remainder becomes a list item carrying the remainder. -/
def parseListItem (l : List Char) : Option Node :=
  match l.dropWhile isWs with
  | c :: d :: cs =>
    if c = '-' ∧ isWs d then some (.listItem ((d :: cs).dropWhile isWs)) else none
  | _ => none

/-- Modelled from the spec: a line matching the reference-link-definition
grammar (bracketed nonempty label, colon, optional whitespace, nonempty
non-whitespace url) becomes a link definition. -/
def parseLinkDef (l : List Char) : Option Node :=
  match l with
  | c :: rest =>
    if c = '[' then
      let lab := rest.takeWhile (· != ']')
      match rest.dropWhile (· != ']') with
      | d :: e :: rest2 =>
        if d = ']' ∧ e = ':' then
          if lab.isEmpty then none
          else
            let url := (rest2.dropWhile isWs).takeWhile (fun x => ! isWs x)
            if url.isEmpty then none else some (.linkDefinition lab url)
        else none
      | _ => none
    else none
  | [] => none

/-- Modelled from the spec: classify one line — heading, then list item,
then link definition, then blank for an empty line, and anything else is
preserved verbatim as a raw node. -/
def parseLine (l : List Char) : Node :=
  match parseHeading l with
  | some n => n
  | none =>
    match parseListItem l with
    | some n => n
    | none =>
      match parseLinkDef l with
      | some n => n
      | none => if l.isEmpty then .blank else .raw l

/-- Modelled from the spec: `parse` scans lines in order and classifies each
one; it is total by construction. -/
def parse (text : List Char) : List Node :=
  (splitLines text).map parseLine

/-! ### Serializer (spec section 4.5) -/

/-- Modelled from the spec: each node maps to exactly one line in the
canonical form for its kind. -/
def renderNode : Node → List Char
  | .heading lvl text => List.replicate lvl '#' ++ ' ' :: text
  | .listItem text => '-' :: ' ' :: text
  | .linkDefinition lab url => '[' :: lab ++ ']' :: ':' :: ' ' :: url
  | .blank => []
  | .raw text => text

/-- Modelled from the spec: `render` writes every node as its canonical line,
joined by newlines. -/
def render (doc : List Node) : List Char :=
  joinLines (doc.map renderNode)

/-! ### Round-trip lemmas -/

theorem reparse_heading (k : Nat) (t : List Char) (h1 : 1 ≤ k) (h2 : k ≤ 6)
    (h3 : trim t = t) : parseLine (renderNode (.heading k t)) = .heading k t := by
  have hhash : ∀ x ∈ List.replicate k '#', (x == '#') = true := by
    intro x hx
    simp [List.eq_of_mem_replicate hx]
  have hsp : ((' ' : Char) == '#') = false := by decide
  have htake : (List.replicate k '#' ++ ' ' :: t).takeWhile (· == '#') = List.replicate k '#' :=
    takeWhile_append_cons _ _ _ _ hhash hsp
  have hdrop : (List.replicate k '#' ++ ' ' :: t).dropWhile (· == '#') = ' ' :: t :=
    dropWhile_append_cons _ _ _ _ hhash hsp
  have htrim : trim (' ' :: t) = t := by
    unfold trim
    rw [ltrim_cons_ws ' ' t (by decide)]
    exact h3
  simp only [renderNode, parseLine, parseHeading, htake, hdrop, List.length_replicate]
  rw [if_pos ⟨h1, h2⟩]
  simp [isWs, htrim]

theorem reparse_listItem (t : List Char) (h : t.dropWhile isWs = t) :
    parseLine (renderNode (.listItem t)) = .listItem t := by
  have hdash : isWs '-' = false := by decide
  have hws : isWs ' ' = true := by decide
  have hone : parseHeading ('-' :: ' ' :: t) = none := by
    simp [parseHeading, List.takeWhile_cons]
  have hdw : ('-' :: ' ' :: t).dropWhile isWs = '-' :: ' ' :: t :=
    List.dropWhile_cons_of_neg (by simp [hdash])
  simp [renderNode, parseLine, hone, parseListItem, hdw, hws, List.dropWhile_cons, h]

theorem reparse_linkDef (lab url : List Char) (h1 : lab ≠ []) (h2 : ∀ c ∈ lab, c ≠ ']')
    (h3 : url ≠ []) (h4 : ∀ c ∈ url, isWs c = false) :
    parseLine (renderNode (.linkDefinition lab url)) = .linkDefinition lab url := by
  have hlab : ∀ x ∈ lab, (x != ']') = true := by
    intro x hx
    simpa using h2 x hx
  have hrb : ((']' : Char) != ']') = false := by decide
  have htake : (lab ++ ']' :: ':' :: ' ' :: url).takeWhile (· != ']') = lab :=
    takeWhile_append_cons _ _ _ _ hlab hrb
  have hdrop : (lab ++ ']' :: ':' :: ' ' :: url).dropWhile (· != ']') = ']' :: ':' :: ' ' :: url :=
    dropWhile_append_cons _ _ _ _ hlab hrb
  have hone : parseHeading ('[' :: (lab ++ ']' :: ':' :: ' ' :: url)) = none := by
    simp [parseHeading, List.takeWhile_cons]
  have htwo : parseListItem ('[' :: (lab ++ ']' :: ':' :: ' ' :: url)) = none := by
    have hlb : isWs '[' = false := by decide
    have hdw : ('[' :: (lab ++ ']' :: ':' :: ' ' :: url)).dropWhile isWs =
        '[' :: (lab ++ ']' :: ':' :: ' ' :: url) :=
      List.dropWhile_cons_of_neg (by simp [hlb])
    rw [parseListItem, hdw]
    cases hx : lab ++ ']' :: ':' :: ' ' :: url with
    | nil => simp at hx
    | cons a as => simp
  have hurl : url.dropWhile isWs = url := by
    cases url with
    | nil => rfl
    | cons u us => simp [List.dropWhile_cons, h4 u (by simp)]
  have hurlt : url.takeWhile (fun c => ! isWs c) = url := by
    apply List.takeWhile_eq_self_iff.mpr
    intro x hx
    simp [h4 x hx]
  have hemp : lab.isEmpty = false := by simpa [List.isEmpty_iff] using h1
  have hempu : url.isEmpty = false := by simpa [List.isEmpty_iff] using h3
  have hrest2 : (' ' :: url).dropWhile isWs = url := by
    rw [List.dropWhile_cons_of_pos (by decide : isWs ' ' = true)]
    exact hurl
  simp [renderNode, parseLine, List.cons_append, hone, htwo, parseLinkDef, htake, hdrop,
    hemp, hrest2, hurlt, hempu]

theorem reparse_blank : parseLine (renderNode .blank) = .blank := by decide


theorem trim_sublist (m : List Char) : (trim m).Sublist m := by
  unfold trim rtrim ltrim
  refine List.Sublist.trans ?_ (List.dropWhile_sublist isWs)
  conv_rhs => rw [← List.reverse_reverse (m.dropWhile isWs)]
  apply List.reverse_sublist.mpr
  exact List.dropWhile_sublist isWs

theorem parseHeading_inv (l : List Char) (n : Node) (h : parseHeading l = some n) :
    ∃ k t, n = .heading k t ∧ 1 ≤ k ∧ k ≤ 6 ∧ trim t = t ∧ t.Sublist l := by
  simp only [parseHeading] at h
  split at h
  · rename_i hk
    split at h
    · rename_i c cs hdw
      split at h
      · simp only [Option.some.injEq] at h
        subst h
        refine ⟨_, trim (c :: cs), rfl, hk.1, hk.2, trim_idem _, ?_⟩
        have h1 : (c :: cs).Sublist l := by
          rw [← hdw]; exact List.dropWhile_sublist _
        exact (trim_sublist _).trans h1
      · simp at h
    · simp at h
  · simp at h

theorem parseListItem_inv (l : List Char) (n : Node) (h : parseListItem l = some n) :
    ∃ t, n = .listItem t ∧ t.dropWhile isWs = t ∧ t.Sublist l := by
  simp only [parseListItem] at h
  split at h
  · rename_i c d cs hdw
    split at h
    · simp only [Option.some.injEq] at h
      subst h
      refine ⟨_, rfl, dropWhile_idem _ _, ?_⟩
      have h1 : (c :: d :: cs).Sublist l := by
        rw [← hdw]; exact List.dropWhile_sublist _
      exact ((List.dropWhile_sublist isWs).trans
        ((List.sublist_cons_self c (d :: cs)))).trans h1
    · simp at h
  · simp at h

theorem parseLinkDef_inv (l : List Char) (n : Node) (h : parseLinkDef l = some n) :
    ∃ lab url, n = .linkDefinition lab url ∧ lab ≠ [] ∧ (∀ c ∈ lab, c ≠ ']') ∧
      url ≠ [] ∧ (∀ c ∈ url, isWs c = false) ∧ lab.Sublist l ∧ url.Sublist l := by
  simp only [parseLinkDef] at h
  split at h
  · rename_i c rest
    split at h
    · rename_i hc
      subst hc
      split at h
      · rename_i d e rest2 hdrop
        split at h
        · split at h
          · simp at h
          · rename_i hemp
            split at h
            · simp at h
            · rename_i hemp2
              simp only [Option.some.injEq] at h
              subst h
              refine ⟨_, _, rfl, ?_, ?_, ?_, ?_, ?_, ?_⟩
              · simpa [List.isEmpty_iff] using hemp
              · intro x hx
                have := List.mem_takeWhile_imp hx
                simpa using this
              · simpa [List.isEmpty_iff] using hemp2
              · intro x hx
                have := List.mem_takeWhile_imp hx
                simpa using this
              · exact (List.takeWhile_sublist _).trans (List.sublist_cons_self '[' rest)
              · have h2 : (d :: e :: rest2).Sublist rest := by
                  rw [← hdrop]; exact List.dropWhile_sublist _
                have h3 : rest2.Sublist rest :=
                  ((List.sublist_cons_self e rest2).trans
                    (List.sublist_cons_self d (e :: rest2))).trans h2
                exact (((List.takeWhile_sublist _).trans
                  (List.dropWhile_sublist isWs)).trans h3).trans
                  (List.sublist_cons_self '[' rest)
        · simp at h
      · simp at h
    · simp at h
  · simp at h

/-- Every classification produced by `parseLine` is well formed: the node is
one of the five shapes with the normalization the parser guarantees, and any
text it carries comes from the input line. -/
theorem parseLine_inv (l : List Char) :
    (∃ k t, parseLine l = .heading k t ∧ 1 ≤ k ∧ k ≤ 6 ∧ trim t = t ∧ t.Sublist l) ∨
    (∃ t, parseLine l = .listItem t ∧ t.dropWhile isWs = t ∧ t.Sublist l) ∨
    (∃ lab url, parseLine l = .linkDefinition lab url ∧ lab ≠ [] ∧
      (∀ c ∈ lab, c ≠ ']') ∧ url ≠ [] ∧ (∀ c ∈ url, isWs c = false) ∧
      lab.Sublist l ∧ url.Sublist l) ∨
    (parseLine l = .blank ∧ l = []) ∨
    (parseLine l = .raw l) := by
  rcases hh : parseHeading l with _ | nh
  · rcases hli : parseListItem l with _ | nli
    · rcases hld : parseLinkDef l with _ | nld
      · by_cases hl : l.isEmpty
        · refine Or.inr (Or.inr (Or.inr (Or.inl ⟨?_, ?_⟩)))
          · simp [parseLine, hh, hli, hld, hl]
          · simpa [List.isEmpty_iff] using hl
        · refine Or.inr (Or.inr (Or.inr (Or.inr ?_)))
          simp [parseLine, hh, hli, hld, hl]
      · refine Or.inr (Or.inr (Or.inl ?_))
        have hpl : parseLine l = nld := by simp [parseLine, hh, hli, hld]
        obtain ⟨lab, url, hn, h1, h2, h3, h4, h5, h6⟩ := parseLinkDef_inv l nld hld
        exact ⟨lab, url, hn ▸ hpl, h1, h2, h3, h4, h5, h6⟩
    · refine Or.inr (Or.inl ?_)
      have hpl : parseLine l = nli := by simp [parseLine, hh, hli]
      obtain ⟨t, hn, h1, h2⟩ := parseListItem_inv l nli hli
      exact ⟨t, hn ▸ hpl, h1, h2⟩
  · refine Or.inl ?_
    have hpl : parseLine l = nh := by simp [parseLine, hh]
    obtain ⟨k, t, hn, h1, h2, h3, h4⟩ := parseHeading_inv l nh hh
    exact ⟨k, t, hn ▸ hpl, h1, h2, h3, h4⟩

/-- Reparsing the canonical line of any node produced by `parseLine` yields
that node again. -/
theorem parseLine_render (l : List Char) :
    parseLine (renderNode (parseLine l)) = parseLine l := by
  rcases parseLine_inv l with ⟨k, t, hpl, h1, h2, h3, _⟩ | ⟨t, hpl, h1, _⟩ |
    ⟨lab, url, hpl, h1, h2, h3, h4, _, _⟩ | ⟨hpl, _⟩ | hpl
  · rw [hpl, reparse_heading k t h1 h2 h3]
  · rw [hpl, reparse_listItem t h1]
  · rw [hpl, reparse_linkDef lab url h1 h2 h3 h4]
  · rw [hpl, reparse_blank]
  · conv_lhs => rw [hpl]
    have : renderNode (.raw l) = l := rfl
    rw [this]

/-- The canonical line of any node produced by `parseLine` on a newline-free
line is itself newline-free. -/
theorem renderNode_parseLine_no_newline (l : List Char) (h : '\n' ∉ l) :
    '\n' ∉ renderNode (parseLine l) := by
  rcases parseLine_inv l with ⟨k, t, hpl, _, _, _, hs⟩ | ⟨t, hpl, _, hs⟩ |
    ⟨lab, url, hpl, _, _, _, _, hs1, hs2⟩ | ⟨hpl, _⟩ | hpl
  · rw [hpl]
    intro hmem
    simp only [renderNode, List.mem_append, List.mem_cons] at hmem
    rcases hmem with hm | hm | hm
    · exact absurd (List.eq_of_mem_replicate hm) (by decide)
    · exact absurd hm (by decide)
    · exact h (hs.mem hm)
  · rw [hpl]
    intro hmem
    simp only [renderNode, List.mem_cons] at hmem
    rcases hmem with hm | hm | hm
    · exact absurd hm (by decide)
    · exact absurd hm (by decide)
    · exact h (hs.mem hm)
  · rw [hpl]
    intro hmem
    have hmem2 : '\n' ∈ '[' :: (lab ++ ']' :: ':' :: ' ' :: url) := hmem
    rcases List.mem_cons.mp hmem2 with h0 | h0
    · exact absurd h0 (by decide)
    rcases List.mem_append.mp h0 with h1 | h1
    · exact h (hs1.mem h1)
    rcases List.mem_cons.mp h1 with h2 | h2
    · exact absurd h2 (by decide)
    rcases List.mem_cons.mp h2 with h3 | h3
    · exact absurd h3 (by decide)
    rcases List.mem_cons.mp h3 with h4 | h4
    · exact absurd h4 (by decide)
    · exact h (hs2.mem h4)
  · rw [hpl]
    simp [renderNode]
  · rw [hpl]
    exact h

/-- C1: for every Document D produced by `parse`, re-parsing the serializer
output yields an AST equal node-for-node to the original:
`parse (render (parse text)) = parse text`. -/
theorem parse_render_roundtrip (text : List Char) :
    parse (render (parse text)) = parse text := by
  unfold parse render
  rw [List.map_map]
  have hnn : ∀ m ∈ (splitLines text).map (renderNode ∘ parseLine), '\n' ∉ m := by
    intro m hm
    obtain ⟨l, hl, rfl⟩ := List.mem_map.mp hm
    exact renderNode_parseLine_no_newline l (mem_splitLines_no_newline text l hl)
  have hne : (splitLines text).map (renderNode ∘ parseLine) ≠ [] := by
    simpa using splitLines_ne_nil text
  rw [splitLines_joinLines _ hne hnn, List.map_map]
  apply List.map_congr_left
  intro l _
  exact parseLine_render l


/-- C5: the parser is total — every line of any input yields exactly one
node, and a nonempty line matching no recognized construct becomes a raw
node rather than an error. -/
theorem parse_total (text l : List Char)
    (h1 : parseHeading l = none) (h2 : parseListItem l = none)
    (h3 : parseLinkDef l = none) (h4 : l ≠ []) :
    (parse text).length = (splitLines text).length ∧ parseLine l = .raw l := by
  constructor
  · simp [parse]
  · simp [parseLine, h1, h2, h3, List.isEmpty_iff, h4]

/-- Witness for `parse_total` at a concrete unrecognized line. -/
theorem parse_total_witness :
    (parse "# T\n\nprose".data).length = (splitLines "# T\n\nprose".data).length ∧
      parseLine "just prose".data = .raw "just prose".data :=
  parse_total "# T\n\nprose".data "just prose".data (by decide) (by decide) (by decide)
    (by decide)

/-! ### Section index / Document (spec section 4.2) -/

/-- Shorthand turning a string literal into the char-list string model. -/
def strL (s : String) : List Char := s.data

/-- Modelled from the spec: case-insensitive comparison of heading titles
(the section index keys on the normalized title). -/
def normEq (a b : List Char) : Bool := a.map Char.toLower == b.map Char.toLower

/-- Modelled from the spec: the level-2 heading named "Unreleased"
(matched case-insensitively). -/
def isUnreleasedHeading : Node → Bool
  | .heading lvl t => lvl == 2 && normEq t (strL "Unreleased")
  | _ => false

/-- Modelled from the spec: is this node a heading of level at most `k`
(such a heading closes the span of a level-`k` section)? -/
def isHeadingLE (k : Nat) : Node → Bool
  | .heading lvl _ => decide (lvl ≤ k)
  | _ => false

/-- A node that does not close a level-`k` span. -/
def notHeadingLE (k : Nat) (n : Node) : Bool := ! isHeadingLE k n

/-- Modelled from the spec: a level-3 heading whose text equals the requested
subsection name. -/
def isSubsectionHeading (name : List Char) : Node → Bool
  | .heading lvl t => lvl == 3 && t == name
  | _ => false

/-- Modelled from the spec: locate the first "Unreleased" heading, returning
the nodes before it, the heading itself, and the nodes after it. -/
def splitAtUnreleased : List Node → Option (List Node × Node × List Node)
  | [] => none
  | n :: rest =>
    if isUnreleasedHeading n then some ([], n, rest)
    else
      match splitAtUnreleased rest with
      | some (pre, h, post) => some (n :: pre, h, post)
      | none => none

/-- Modelled from the spec: locate the first level-3 heading with the given
text, returning the nodes before it and the nodes after it. -/
def splitAtSubsection (name : List Char) : List Node → Option (List Node × List Node)
  | [] => none
  | n :: rest =>
    if isSubsectionHeading name n then some ([], rest)
    else
      match splitAtSubsection name rest with
      | some (p, r) => some (n :: p, r)
      | none => none

/-- Modelled from the spec: the span of the "Unreleased" section — everything
after its heading up to the next heading of level at most 2. -/
def unreleasedBody (doc : List Node) : Option (List Node) :=
  (splitAtUnreleased doc).map (fun x => x.2.2.takeWhile (notHeadingLE 2))

/-- Modelled from the spec: the span of the named level-3 subsection inside
the "Unreleased" section — everything after its heading up to the next
heading of level at most 3. -/
def subsectionBody (doc : List Node) (name : List Char) : Option (List Node) :=
  match unreleasedBody doc with
  | none => none
  | some ub =>
    match splitAtSubsection name ub with
    | none => none
    | some (_, rest) => some (rest.takeWhile (notHeadingLE 3))

/-- Everything of the document outside the "Unreleased" section span: the
prologue before the Unreleased heading, the heading node itself, and the
suffix from the next heading of level at most 2 onward. -/
def outsideUnreleased (doc : List Node) : Option (List Node × Node × List Node) :=
  (splitAtUnreleased doc).map (fun x => (x.1, x.2.1, x.2.2.dropWhile (notHeadingLE 2)))

/-- Modelled from the spec: `add_list_item_to_section` locates (or creates,
if absent, directly under the "Unreleased" heading) a level-3 heading whose
text equals the subsection name, and appends a new list item as the last
node of that subsection span, preceded by a blank if the subsection was
previously empty; if the "Unreleased" heading is missing this is a fatal
structural precondition violation (`none`). -/
def add_list_item_to_section (doc : List Node) (name msg : List Char) :
    Option (List Node) :=
  match splitAtUnreleased doc with
  | none => none
  | some (pre, h, post) =>
    let ub := post.takeWhile (notHeadingLE 2)
    let after := post.dropWhile (notHeadingLE 2)
    let newUb :=
      match splitAtSubsection name ub with
      | none => Node.heading 3 name :: Node.blank :: Node.listItem msg :: ub
      | some (preSub, restSub) =>
        let body := restSub.takeWhile (notHeadingLE 3)
        let afterSub := restSub.dropWhile (notHeadingLE 3)
        let newBody :=
          if body.isEmpty then [Node.blank, Node.listItem msg]
          else body ++ [Node.listItem msg]
        preSub ++ Node.heading 3 name :: (newBody ++ afterSub)
    some (pre ++ h :: (newUb ++ after))


/-! ### Lemmas about the section splits -/

theorem takeWhile_append_stop {α : Type} (p : α → Bool) (r : List α) (c : α) (w : List α)
    (hc : p c = false) : (r ++ c :: w).takeWhile p = r.takeWhile p := by
  induction r with
  | nil => simp [List.takeWhile_cons, hc]
  | cons a as ih =>
    by_cases ha : p a = true
    · simp only [List.cons_append, List.takeWhile_cons, ha, if_true]
      rw [ih]
    · simp only [Bool.not_eq_true] at ha
      simp [List.takeWhile_cons, ha]

theorem takeWhile_append_dropWhile_all {α : Type} (p : α → Bool) (xs l : List α)
    (hxs : ∀ x ∈ xs, p x = true) : (xs ++ l.dropWhile p).takeWhile p = xs := by
  cases hdrop : l.dropWhile p with
  | nil =>
    rw [List.append_nil]
    exact List.takeWhile_eq_self_iff.mpr hxs
  | cons a as =>
    have ha : p a = false := by
      have h0 := List.head?_dropWhile_not p l
      rw [hdrop] at h0
      simpa using h0
    exact takeWhile_append_cons p xs a as hxs ha

theorem dropWhile_append_dropWhile_all {α : Type} (p : α → Bool) (xs l : List α)
    (hxs : ∀ x ∈ xs, p x = true) : (xs ++ l.dropWhile p).dropWhile p = l.dropWhile p := by
  cases hdrop : l.dropWhile p with
  | nil =>
    rw [List.append_nil]
    exact List.dropWhile_eq_nil_iff.mpr (fun x hx => hxs x hx)
  | cons a as =>
    have ha : p a = false := by
      have h0 := List.head?_dropWhile_not p l
      rw [hdrop] at h0
      simpa using h0
    exact dropWhile_append_cons p xs a as hxs ha

theorem isSubsectionHeading_true (nm : List Char) (n : Node)
    (h : isSubsectionHeading nm n = true) : n = .heading 3 nm := by
  cases n with
  | heading lvl t =>
    simp only [isSubsectionHeading, Bool.and_eq_true, beq_iff_eq] at h
    simp [h.1, h.2]
  | listItem t => simp [isSubsectionHeading] at h
  | linkDefinition a b => simp [isSubsectionHeading] at h
  | blank => simp [isSubsectionHeading] at h
  | raw t => simp [isSubsectionHeading] at h

theorem notHeadingLE_not_subsection (nm : List Char) (n : Node)
    (h : notHeadingLE 3 n = true) : isSubsectionHeading nm n = false := by
  cases n with
  | heading lvl t =>
    simp only [notHeadingLE, isHeadingLE, Bool.not_eq_eq_eq_not, Bool.not_true,
      decide_eq_false_iff_not] at h
    have : ¬ (lvl = 3) := fun hl => h (by omega)
    simp [isSubsectionHeading, this]
  | listItem t => simp [isSubsectionHeading]
  | linkDefinition a b => simp [isSubsectionHeading]
  | blank => simp [isSubsectionHeading]
  | raw t => simp [isSubsectionHeading]

theorem splitAtUnreleased_construct (pre : List Node) (h : Node) (post : List Node)
    (hpre : ∀ n ∈ pre, isUnreleasedHeading n = false)
    (hU : isUnreleasedHeading h = true) :
    splitAtUnreleased (pre ++ h :: post) = some (pre, h, post) := by
  induction pre with
  | nil => simp [splitAtUnreleased, hU]
  | cons a as ih =>
    have ha : isUnreleasedHeading a = false := hpre a (by simp)
    simp only [List.cons_append, splitAtUnreleased, ha, Bool.false_eq_true, if_false,
      List.append_eq]
    rw [ih (fun n hn => hpre n (by simp [hn]))]

theorem splitAtSubsection_skip (nm : List Char) (xs ys : List Node)
    (hxs : ∀ x ∈ xs, isSubsectionHeading nm x = false) :
    splitAtSubsection nm (xs ++ ys) =
      (splitAtSubsection nm ys).map (fun pr => (xs ++ pr.1, pr.2)) := by
  induction xs with
  | nil =>
    simp only [List.nil_append]
    cases splitAtSubsection nm ys <;> simp
  | cons a as ih =>
    have ha : isSubsectionHeading nm a = false := hxs a (by simp)
    simp only [List.cons_append, splitAtSubsection, ha, Bool.false_eq_true, if_false,
      List.append_eq]
    rw [ih (fun n hn => hxs n (by simp [hn]))]
    cases splitAtSubsection nm ys <;> simp

theorem splitAtSubsection_cons_found (nm : List Char) (n : Node) (rest : List Node)
    (hn : isSubsectionHeading nm n = true) :
    splitAtSubsection nm (n :: rest) = some ([], rest) := by
  simp [splitAtSubsection, hn]

theorem splitAtSubsection_found_append (nm : List Char) (xs ys : List Node)
    (p r : List Node) (hfound : splitAtSubsection nm xs = some (p, r)) :
    splitAtSubsection nm (xs ++ ys) = some (p, r ++ ys) := by
  induction xs generalizing p with
  | nil => simp [splitAtSubsection] at hfound
  | cons a as ih =>
    simp only [splitAtSubsection] at hfound
    by_cases ha : isSubsectionHeading nm a = true
    · rw [if_pos ha] at hfound
      simp only [Option.some.injEq, Prod.mk.injEq] at hfound
      obtain ⟨hp, hr⟩ := hfound
      subst hp; subst hr
      simp [List.cons_append, splitAtSubsection, ha]
    · simp only [ha, Bool.false_eq_true, if_false] at hfound
      rcases hsub : splitAtSubsection nm as with _ | ⟨p2, r2⟩ <;> rw [hsub] at hfound
      · simp at hfound
      · simp only [Option.some.injEq, Prod.mk.injEq] at hfound
        obtain ⟨hp, hr⟩ := hfound
        subst hp; subst hr
        have := ih p2 hsub
        simp only [List.cons_append, splitAtSubsection, ha, Bool.false_eq_true, if_false,
          List.append_eq]
        rw [this]

theorem splitAtSubsection_none_iff (nm : List Char) (l : List Node) :
    splitAtSubsection nm l = none ↔ ∀ x ∈ l, isSubsectionHeading nm x = false := by
  induction l with
  | nil => simp [splitAtSubsection]
  | cons a as ih =>
    constructor
    · intro h x hx
      simp only [splitAtSubsection] at h
      by_cases ha : isSubsectionHeading nm a = true
      · rw [if_pos ha] at h; simp at h
      · rcases List.mem_cons.mp hx with h1 | h1
        · subst h1; simpa using ha
        · simp only [ha, Bool.false_eq_true, if_false] at h
          rcases hsub : splitAtSubsection nm as with _ | ⟨p, r⟩ <;> rw [hsub] at h
          · exact (ih.mp hsub) x h1
          · simp at h
    · intro h
      have ha : isSubsectionHeading nm a = false := h a (by simp)
      simp only [splitAtSubsection, ha, Bool.false_eq_true, if_false]
      rw [ih.mpr (fun x hx => h x (by simp [hx]))]

theorem splitAtSubsection_sound (nm : List Char) (l : List Node) (p r : List Node)
    (h : splitAtSubsection nm l = some (p, r)) :
    l = p ++ Node.heading 3 nm :: r ∧ ∀ m ∈ p, isSubsectionHeading nm m = false := by
  induction l generalizing p with
  | nil => simp [splitAtSubsection] at h
  | cons a as ih =>
    simp only [splitAtSubsection] at h
    by_cases ha : isSubsectionHeading nm a = true
    · rw [if_pos ha] at h
      simp only [Option.some.injEq, Prod.mk.injEq] at h
      obtain ⟨hp, hr⟩ := h
      subst hp; subst hr
      refine ⟨?_, by simp⟩
      rw [isSubsectionHeading_true nm a ha]
      simp
    · simp only [ha, Bool.false_eq_true, if_false] at h
      rcases hsub : splitAtSubsection nm as with _ | ⟨p2, r2⟩ <;> rw [hsub] at h
      · simp at h
      · simp only [Option.some.injEq, Prod.mk.injEq] at h
        obtain ⟨hp, hr⟩ := h
        subst hp; subst hr
        obtain ⟨heq, hall⟩ := ih p2 hsub
        constructor
        · rw [List.cons_append, ← heq]
        · intro m hm
          rcases List.mem_cons.mp hm with h1 | h1
          · subst h1; simpa using ha
          · exact hall m h1


theorem splitAtSubsection_cons_skip (nm : List Char) (n : Node) (rest : List Node)
    (hn : isSubsectionHeading nm n = false) :
    splitAtSubsection nm (n :: rest) =
      (splitAtSubsection nm rest).map (fun pr => (n :: pr.1, pr.2)) := by
  simp only [splitAtSubsection, hn, Bool.false_eq_true, if_false]
  cases splitAtSubsection nm rest <;> simp

theorem isSubsectionHeading_self (nm : List Char) :
    isSubsectionHeading nm (.heading 3 nm) = true := by
  simp [isSubsectionHeading]

theorem isSubsectionHeading_heading3_ne (other nm : List Char) (hne : other ≠ nm) :
    isSubsectionHeading other (.heading 3 nm) = false := by
  have hb : (nm == other) = false := by
    rw [beq_eq_false_iff_ne]
    exact fun he => hne he.symm
  simp [isSubsectionHeading, hb]

/-- C3: on any document containing an "Unreleased" heading,
`add_list_item_to_section` succeeds; the named subsection span afterwards is
the old span plus exactly one final list item (preceded by a blank when the
span was previously empty; when the subsection was absent it is created
directly under the Unreleased heading, so its span is the blank, the item,
and whatever prologue of the Unreleased body follows before the next
subsection heading); every other subsection span and everything outside the
Unreleased section are unchanged. -/
theorem add_list_item_spec (pre : List Node) (h : Node) (post : List Node)
    (name msg : List Char)
    (hU : isUnreleasedHeading h = true)
    (hpre : ∀ n ∈ pre, isUnreleasedHeading n = false) :
    ∃ d', add_list_item_to_section (pre ++ h :: post) name msg = some d' ∧
      subsectionBody d' name =
        some (match subsectionBody (pre ++ h :: post) name with
          | some b =>
            if b.isEmpty then [Node.blank, Node.listItem msg]
            else b ++ [Node.listItem msg]
          | none => Node.blank :: Node.listItem msg ::
              ((post.takeWhile (notHeadingLE 2)).takeWhile (notHeadingLE 3))) ∧
      (∀ other, other ≠ name →
        subsectionBody d' other = subsectionBody (pre ++ h :: post) other) ∧
      outsideUnreleased d' = outsideUnreleased (pre ++ h :: post) := by
  have hsplit := splitAtUnreleased_construct pre h post hpre hU
  have hubmem : ∀ n ∈ post.takeWhile (notHeadingLE 2), notHeadingLE 2 n = true :=
    fun n hn => List.mem_takeWhile_imp hn
  rcases hcase : splitAtSubsection name (post.takeWhile (notHeadingLE 2)) with _ | ⟨preSub, restSub⟩
  · -- the subsection is absent: it is created directly under the Unreleased heading
    refine ⟨pre ++ h :: ((Node.heading 3 name :: Node.blank :: Node.listItem msg ::
      post.takeWhile (notHeadingLE 2)) ++ post.dropWhile (notHeadingLE 2)), ?_, ?_, ?_, ?_⟩
    · simp only [add_list_item_to_section, hsplit, hcase]
    · have hnew2 : ∀ n ∈ Node.heading 3 name :: Node.blank :: Node.listItem msg ::
          post.takeWhile (notHeadingLE 2), notHeadingLE 2 n = true := by
        intro n hn
        rcases List.mem_cons.mp hn with h1 | hn
        · subst h1; rfl
        rcases List.mem_cons.mp hn with h1 | hn
        · subst h1; rfl
        rcases List.mem_cons.mp hn with h1 | hn
        · subst h1; rfl
        · exact hubmem n hn
      have hsplitNew := splitAtUnreleased_construct pre h
        ((Node.heading 3 name :: Node.blank :: Node.listItem msg ::
          post.takeWhile (notHeadingLE 2)) ++ post.dropWhile (notHeadingLE 2)) hpre hU
      have hsb : subsectionBody (pre ++ h :: post) name = none := by
        simp [subsectionBody, unreleasedBody, hsplit, hcase]
      rw [hsb]
      simp only [subsectionBody, unreleasedBody, hsplitNew, Option.map_some']
      rw [takeWhile_append_dropWhile_all _ _ _ hnew2]
      rw [splitAtSubsection_cons_found name _ _ (isSubsectionHeading_self name)]
      simp [List.takeWhile_cons, notHeadingLE, isHeadingLE]
    · intro other hne
      have hnew2 : ∀ n ∈ Node.heading 3 name :: Node.blank :: Node.listItem msg ::
          post.takeWhile (notHeadingLE 2), notHeadingLE 2 n = true := by
        intro n hn
        rcases List.mem_cons.mp hn with h1 | hn
        · subst h1; rfl
        rcases List.mem_cons.mp hn with h1 | hn
        · subst h1; rfl
        rcases List.mem_cons.mp hn with h1 | hn
        · subst h1; rfl
        · exact hubmem n hn
      have hsplitNew := splitAtUnreleased_construct pre h
        ((Node.heading 3 name :: Node.blank :: Node.listItem msg ::
          post.takeWhile (notHeadingLE 2)) ++ post.dropWhile (notHeadingLE 2)) hpre hU
      have hoth3 := isSubsectionHeading_heading3_ne other name hne
      have hLHS : splitAtSubsection other (Node.heading 3 name :: Node.blank ::
          Node.listItem msg :: post.takeWhile (notHeadingLE 2)) =
          (splitAtSubsection other (post.takeWhile (notHeadingLE 2))).map
            (fun pr => (Node.heading 3 name :: Node.blank :: Node.listItem msg :: pr.1,
              pr.2)) := by
        rw [splitAtSubsection_cons_skip other _ _ hoth3,
          splitAtSubsection_cons_skip other _ _ (by rfl),
          splitAtSubsection_cons_skip other _ _ (by rfl)]
        cases splitAtSubsection other (post.takeWhile (notHeadingLE 2)) <;> simp
      rcases hsub2 : splitAtSubsection other (post.takeWhile (notHeadingLE 2)) with _ | ⟨p, r⟩
      · simp only [subsectionBody, unreleasedBody, hsplitNew, hsplit, Option.map_some']
        rw [takeWhile_append_dropWhile_all _ _ _ hnew2, hLHS, hsub2]
        simp
      · simp only [subsectionBody, unreleasedBody, hsplitNew, hsplit, Option.map_some']
        rw [takeWhile_append_dropWhile_all _ _ _ hnew2, hLHS, hsub2]
        simp
    · have hnew2 : ∀ n ∈ Node.heading 3 name :: Node.blank :: Node.listItem msg ::
          post.takeWhile (notHeadingLE 2), notHeadingLE 2 n = true := by
        intro n hn
        rcases List.mem_cons.mp hn with h1 | hn
        · subst h1; rfl
        rcases List.mem_cons.mp hn with h1 | hn
        · subst h1; rfl
        rcases List.mem_cons.mp hn with h1 | hn
        · subst h1; rfl
        · exact hubmem n hn
      have hsplitNew := splitAtUnreleased_construct pre h
        ((Node.heading 3 name :: Node.blank :: Node.listItem msg ::
          post.takeWhile (notHeadingLE 2)) ++ post.dropWhile (notHeadingLE 2)) hpre hU
      simp only [outsideUnreleased, hsplitNew, hsplit, Option.map_some']
      rw [dropWhile_append_dropWhile_all _ _ _ hnew2]
  · -- the subsection exists: the item is appended at the end of its span
    obtain ⟨hubeq, hpresub⟩ := splitAtSubsection_sound name _ preSub restSub hcase
    have hps2 : ∀ n ∈ preSub, notHeadingLE 2 n = true := fun n hn =>
      hubmem n (by rw [hubeq]; exact List.mem_append_left _ hn)
    have hrs2 : ∀ n ∈ restSub, notHeadingLE 2 n = true := fun n hn =>
      hubmem n (by rw [hubeq]; exact List.mem_append_right _ (List.mem_cons_of_mem _ hn))
    have hb3 : ∀ n ∈ restSub.takeWhile (notHeadingLE 3), notHeadingLE 3 n = true :=
      fun n hn => List.mem_takeWhile_imp hn
    have hnb2 : ∀ n ∈ (if (restSub.takeWhile (notHeadingLE 3)).isEmpty then
        [Node.blank, Node.listItem msg]
        else restSub.takeWhile (notHeadingLE 3) ++ [Node.listItem msg]),
        notHeadingLE 2 n = true := by
      intro n hn
      split at hn
      · rcases List.mem_cons.mp hn with h1 | hn
        · subst h1; rfl
        · rcases List.mem_cons.mp hn with h1 | hn
          · subst h1; rfl
          · simp at hn
      · rcases List.mem_append.mp hn with h1 | h1
        · exact hrs2 n ((List.takeWhile_sublist _).mem h1)
        · rcases List.mem_cons.mp h1 with h2 | h2
          · subst h2; rfl
          · simp at h2
    have hnew2 : ∀ n ∈ preSub ++ Node.heading 3 name ::
        ((if (restSub.takeWhile (notHeadingLE 3)).isEmpty then
          [Node.blank, Node.listItem msg]
          else restSub.takeWhile (notHeadingLE 3) ++ [Node.listItem msg]) ++
          restSub.dropWhile (notHeadingLE 3)), notHeadingLE 2 n = true := by
      intro n hn
      rcases List.mem_append.mp hn with h1 | h1
      · exact hps2 n h1
      · rcases List.mem_cons.mp h1 with h2 | h2
        · subst h2; rfl
        · rcases List.mem_append.mp h2 with h3 | h3
          · exact hnb2 n h3
          · exact hrs2 n ((List.dropWhile_sublist _).mem h3)
    have hsplitNew := splitAtUnreleased_construct pre h
      ((preSub ++ Node.heading 3 name ::
        ((if (restSub.takeWhile (notHeadingLE 3)).isEmpty then
          [Node.blank, Node.listItem msg]
          else restSub.takeWhile (notHeadingLE 3) ++ [Node.listItem msg]) ++
          restSub.dropWhile (notHeadingLE 3))) ++ post.dropWhile (notHeadingLE 2)) hpre hU
    have hsb : subsectionBody (pre ++ h :: post) name =
        some (restSub.takeWhile (notHeadingLE 3)) := by
      simp [subsectionBody, unreleasedBody, hsplit, hcase]
    refine ⟨pre ++ h :: ((preSub ++ Node.heading 3 name ::
      ((if (restSub.takeWhile (notHeadingLE 3)).isEmpty then
        [Node.blank, Node.listItem msg]
        else restSub.takeWhile (notHeadingLE 3) ++ [Node.listItem msg]) ++
        restSub.dropWhile (notHeadingLE 3))) ++ post.dropWhile (notHeadingLE 2)),
      ?_, ?_, ?_, ?_⟩
    · simp only [add_list_item_to_section, hsplit, hcase]
    · rw [hsb]
      simp only [subsectionBody, unreleasedBody, hsplitNew, Option.map_some']
      rw [takeWhile_append_dropWhile_all _ _ _ hnew2]
      rw [splitAtSubsection_skip name preSub _ hpresub,
        splitAtSubsection_cons_found name _ _ (isSubsectionHeading_self name)]
      simp only [Option.map_some']
      by_cases hbe : (restSub.takeWhile (notHeadingLE 3)).isEmpty
      · rw [if_pos hbe]
        have : ([Node.blank, Node.listItem msg] ++
            restSub.dropWhile (notHeadingLE 3)).takeWhile (notHeadingLE 3) =
            [Node.blank, Node.listItem msg] := by
          apply takeWhile_append_dropWhile_all
          intro n hn
          rcases List.mem_cons.mp hn with h1 | hn
          · subst h1; rfl
          · rcases List.mem_cons.mp hn with h1 | hn
            · subst h1; rfl
            · simp at hn
        rw [this]
      · rw [if_neg hbe]
        have : ((restSub.takeWhile (notHeadingLE 3) ++ [Node.listItem msg]) ++
            restSub.dropWhile (notHeadingLE 3)).takeWhile (notHeadingLE 3) =
            restSub.takeWhile (notHeadingLE 3) ++ [Node.listItem msg] := by
          apply takeWhile_append_dropWhile_all
          intro n hn
          rcases List.mem_append.mp hn with h1 | h1
          · exact hb3 n h1
          · rcases List.mem_cons.mp h1 with h2 | h2
            · subst h2; rfl
            · simp at h2
        rw [this]
    · intro other hne
      have hoth3 := isSubsectionHeading_heading3_ne other name hne
      have hbodyfalse : ∀ x ∈ restSub.takeWhile (notHeadingLE 3),
          isSubsectionHeading other x = false :=
        fun x hx => notHeadingLE_not_subsection other x (hb3 x hx)
      have hnbfalse : ∀ x ∈ (if (restSub.takeWhile (notHeadingLE 3)).isEmpty then
          [Node.blank, Node.listItem msg]
          else restSub.takeWhile (notHeadingLE 3) ++ [Node.listItem msg]),
          isSubsectionHeading other x = false := by
        intro x hx
        split at hx
        · rcases List.mem_cons.mp hx with h1 | hx
          · subst h1; rfl
          · rcases List.mem_cons.mp hx with h1 | hx
            · subst h1; rfl
            · simp at hx
        · rcases List.mem_append.mp hx with h1 | h1
          · exact hbodyfalse x h1
          · rcases List.mem_cons.mp h1 with h2 | h2
            · subst h2; rfl
            · simp at h2
      rcases hps : splitAtSubsection other preSub with _ | ⟨p, r⟩
      · -- not found before the named subsection: both sides skip to after its span
        have hpsall := (splitAtSubsection_none_iff other preSub).mp hps
        have hbody_split : splitAtSubsection other restSub =
            (splitAtSubsection other (restSub.dropWhile (notHeadingLE 3))).map
              (fun pr => (restSub.takeWhile (notHeadingLE 3) ++ pr.1, pr.2)) := by
          conv_lhs => rw [← List.takeWhile_append_dropWhile (p := notHeadingLE 3)
            (l := restSub)]
          rw [splitAtSubsection_skip other _ _ hbodyfalse]
        have hLHS : splitAtSubsection other (preSub ++ Node.heading 3 name ::
            ((if (restSub.takeWhile (notHeadingLE 3)).isEmpty then
              [Node.blank, Node.listItem msg]
              else restSub.takeWhile (notHeadingLE 3) ++ [Node.listItem msg]) ++
              restSub.dropWhile (notHeadingLE 3))) =
            (splitAtSubsection other (restSub.dropWhile (notHeadingLE 3))).map
              (fun pr => (preSub ++ Node.heading 3 name ::
                ((if (restSub.takeWhile (notHeadingLE 3)).isEmpty then
                  [Node.blank, Node.listItem msg]
                  else restSub.takeWhile (notHeadingLE 3) ++ [Node.listItem msg]) ++
                  pr.1), pr.2)) := by
          rw [splitAtSubsection_skip other preSub _ hpsall,
            splitAtSubsection_cons_skip other _ _ hoth3,
            splitAtSubsection_skip other _ _ hnbfalse]
          cases splitAtSubsection other (restSub.dropWhile (notHeadingLE 3)) <;> simp
        have hRHS : splitAtSubsection other (post.takeWhile (notHeadingLE 2)) =
            (splitAtSubsection other (restSub.dropWhile (notHeadingLE 3))).map
              (fun pr => (preSub ++ Node.heading 3 name ::
                (restSub.takeWhile (notHeadingLE 3) ++ pr.1), pr.2)) := by
          rw [hubeq, splitAtSubsection_skip other preSub _ hpsall,
            splitAtSubsection_cons_skip other _ _ hoth3, hbody_split]
          cases splitAtSubsection other (restSub.dropWhile (notHeadingLE 3)) <;> simp
        rcases hafterS : splitAtSubsection other (restSub.dropWhile (notHeadingLE 3)) with
          _ | ⟨p, r⟩
        · simp only [subsectionBody, unreleasedBody, hsplitNew, hsplit, Option.map_some']
          rw [takeWhile_append_dropWhile_all _ _ _ hnew2, hLHS, hRHS, hafterS]
          simp
        · simp only [subsectionBody, unreleasedBody, hsplitNew, hsplit, Option.map_some']
          rw [takeWhile_append_dropWhile_all _ _ _ hnew2, hLHS, hRHS, hafterS]
          simp
      · -- found before the named subsection: its span stops at the named heading
        have hstop : notHeadingLE 3 (Node.heading 3 name) = false := rfl
        have hLHS := splitAtSubsection_found_append other preSub
          (Node.heading 3 name ::
            ((if (restSub.takeWhile (notHeadingLE 3)).isEmpty then
              [Node.blank, Node.listItem msg]
              else restSub.takeWhile (notHeadingLE 3) ++ [Node.listItem msg]) ++
              restSub.dropWhile (notHeadingLE 3))) p r hps
        have hRHS := splitAtSubsection_found_append other preSub
          (Node.heading 3 name :: restSub) p r hps
        simp only [subsectionBody, unreleasedBody, hsplitNew, hsplit, Option.map_some']
        rw [takeWhile_append_dropWhile_all _ _ _ hnew2, hLHS, hubeq, hRHS]
        simp [takeWhile_append_stop (notHeadingLE 3) r (Node.heading 3 name), hstop]
    · simp only [outsideUnreleased, hsplitNew, hsplit, Option.map_some']
      rw [dropWhile_append_dropWhile_all _ _ _ hnew2]


/-! ### SemVer value types and the release engine (spec sections 3, 4.3) -/

/-- Modelled from the spec: a parsed semantic version — three non-negative
integers plus an optional pre-release/build suffix. -/
structure Version where
  major : Nat
  minor : Nat
  patch : Nat
  suffix : List Char
deriving DecidableEq, Repr

/-- Modelled from the spec: the version selector consumed by the release
engine. -/
inductive SemVer where
  | major
  | minor
  | patch
  | infer
  | explicit (s : List Char)
deriving DecidableEq, Repr

/-- Modelled from the spec (section 7 error taxonomy): the release-aborting
failures. -/
inductive ReleaseError where
  | versionResolution
  | outOfOrder
  | missingUnreleased
deriving DecidableEq, Repr

/-- Digits to the number they denote, most significant first. -/
def digitsToNat (l : List Char) : Nat :=
  l.foldl (fun acc c => acc * 10 + (c.toNat - 48)) 0

/-- Modelled from the spec: validate and parse an explicit version string as
three non-negative integers optionally followed by a pre-release/build
suffix introduced by a dash or plus. -/
def parseVersion (l : List Char) : Option Version :=
  let d1 := l.takeWhile Char.isDigit
  let r1 := l.dropWhile Char.isDigit
  if d1.isEmpty then none
  else
    match r1 with
    | c1 :: r2 =>
      if c1 = '.' then
        let d2 := r2.takeWhile Char.isDigit
        let r3 := r2.dropWhile Char.isDigit
        if d2.isEmpty then none
        else
          match r3 with
          | c2 :: r4 =>
            if c2 = '.' then
              let d3 := r4.takeWhile Char.isDigit
              let r5 := r4.dropWhile Char.isDigit
              if d3.isEmpty then none
              else
                match r5 with
                | [] => some ⟨digitsToNat d1, digitsToNat d2, digitsToNat d3, []⟩
                | c3 :: _ =>
                  if c3 = '-' ∨ c3 = '+' then
                    some ⟨digitsToNat d1, digitsToNat d2, digitsToNat d3, r5⟩
                  else none
            else none
          | [] => none
      else none
    | [] => none

/-- Modelled from the spec: standard major.minor.patch lexicographic-numeric
strict ordering (the suffix does not participate). -/
def vlt (a b : Version) : Prop :=
  a.major < b.major ∨ (a.major = b.major ∧ (a.minor < b.minor ∨
    (a.minor = b.minor ∧ a.patch < b.patch)))

instance (a b : Version) : Decidable (vlt a b) := by
  unfold vlt
  infer_instance

theorem vlt_of_not_lt_of_lt (a b c : Version) (h1 : ¬ vlt b a) (h2 : vlt b c) :
    vlt a c := by
  unfold vlt at *
  omega

/-- The released version parsed from a node: a level-2 heading whose text is
not "Unreleased", of the form "{version} - {date}". -/
def releasedVersionOfNode (n : Node) : Option Version :=
  match n with
  | .heading lvl t =>
    if lvl == 2 && ! normEq t (strL "Unreleased") then
      parseVersion (t.takeWhile (· != ' '))
    else none
  | _ => none

/-- All released versions of the document, in document order. -/
def releasedVersions (doc : List Node) : List Version :=
  doc.filterMap releasedVersionOfNode

/-- The larger of two versions. -/
def vmax (a b : Version) : Version := if vlt a b then b else a

/-- Modelled from the spec: the highest existing released version heading. -/
def highestReleased (doc : List Node) : Option Version :=
  match releasedVersions doc with
  | [] => none
  | v :: vs => some (vs.foldl vmax v)

theorem foldl_vmax_ge (vs : List Version) :
    ∀ (acc w : Version), (w = acc ∨ w ∈ vs) → ¬ vlt (vs.foldl vmax acc) w := by
  induction vs with
  | nil =>
    intro acc w hw
    rcases hw with rfl | hmem
    · simp only [List.foldl_nil]
      unfold vlt; omega
    · simp at hmem
  | cons x xs ih =>
    intro acc w hw
    have hstep : ∀ u : Version, (u = acc ∨ u = x) → ¬ vlt (vmax acc x) u := by
      intro u hu
      unfold vmax
      by_cases hc : vlt acc x
      · rw [if_pos hc]
        rcases hu with rfl | rfl
        · unfold vlt at *; omega
        · unfold vlt; omega
      · rw [if_neg hc]
        rcases hu with rfl | rfl
        · unfold vlt; omega
        · unfold vlt at *; omega
    rcases hw with rfl | hmem
    · have h1 := ih (vmax w x) (vmax w x) (Or.inl rfl)
      have h2 := hstep w (Or.inl rfl)
      simp only [List.foldl_cons]
      unfold vlt at h1 h2 ⊢
      omega
    · rcases List.mem_cons.mp hmem with rfl | hmem2
      · have h1 := ih (vmax acc w) (vmax acc w) (Or.inl rfl)
        have h2 := hstep w (Or.inr rfl)
        simp only [List.foldl_cons]
        unfold vlt at h1 h2 ⊢
        omega
      · simp only [List.foldl_cons]
        exact ih (vmax acc x) w (Or.inr hmem2)

theorem highestReleased_ge (doc : List Node) (w : Version)
    (hw : w ∈ releasedVersions doc) :
    ∃ hv, highestReleased doc = some hv ∧ ¬ vlt hv w := by
  unfold highestReleased
  cases hrel : releasedVersions doc with
  | nil => rw [hrel] at hw; simp at hw
  | cons v vs =>
    rw [hrel] at hw
    refine ⟨vs.foldl vmax v, rfl, ?_⟩
    rcases List.mem_cons.mp hw with rfl | hmem
    · exact foldl_vmax_ge vs w w (Or.inl rfl)
    · exact foldl_vmax_ge vs v w (Or.inr hmem)

/-- Bump the major component. -/
def bumpMajor (v : Version) : Version := ⟨v.major + 1, 0, 0, []⟩

/-- Bump the minor component. -/
def bumpMinor (v : Version) : Version := ⟨v.major, v.minor + 1, 0, []⟩

/-- Bump the patch component. -/
def bumpPatch (v : Version) : Version := ⟨v.major, v.minor, v.patch + 1, []⟩

/-- The highest released version, or 0.0.0 for a document with no released
sections yet. -/
def baseVersion (doc : List Node) : Version :=
  (highestReleased doc).getD ⟨0, 0, 0, []⟩

/-- Modelled from the spec: resolve the selector to a concrete version.
`major`/`minor`/`patch` bump the highest existing released version; `infer`
reads the externally supplied current package version and requires it to
advance past the highest released heading (resolution error otherwise);
`explicit` must parse as a semantic version and be strictly greater than the
highest existing released version or the operation fails with an
out-of-order-version error. -/
def resolveVersion (doc : List Node) (sel : SemVer) (pkg : Option (List Char)) :
    Except ReleaseError Version :=
  match sel with
  | .major => .ok (bumpMajor (baseVersion doc))
  | .minor => .ok (bumpMinor (baseVersion doc))
  | .patch => .ok (bumpPatch (baseVersion doc))
  | .infer =>
    match pkg with
    | none => .error .versionResolution
    | some s =>
      match parseVersion s with
      | none => .error .versionResolution
      | some u =>
        match highestReleased doc with
        | none => .ok u
        | some hv => if vlt hv u then .ok u else .error .versionResolution
  | .explicit s =>
    match parseVersion s with
    | none => .error .versionResolution
    | some u =>
      match highestReleased doc with
      | none => .ok u
      | some hv => if vlt hv u then .ok u else .error .outOfOrder

/-- Digits of a natural number. -/
def natChars (n : Nat) : List Char := Nat.toDigits 10 n

/-- Canonical string of a version. -/
def renderVersion (v : Version) : List Char :=
  natChars v.major ++ '.' :: natChars v.minor ++ '.' :: natChars v.patch ++ v.suffix

/-- Modelled from the spec: the five standard empty subsection headings
created under a fresh "Unreleased" heading. -/
def stdSubsections : List Node :=
  [Node.heading 3 (strL "Added"), Node.heading 3 (strL "Fixed"),
   Node.heading 3 (strL "Changed"), Node.heading 3 (strL "Deprecated"),
   Node.heading 3 (strL "Removed")]

/-- Replace every occurrence of a nonempty pattern in a string. -/
def replaceAll (pat rep : List Char) : List Char → List Char
  | [] => []
  | c :: rest =>
    if h : pat ≠ [] ∧ pat.isPrefixOf (c :: rest) then
      rep ++ replaceAll pat rep ((c :: rest).drop pat.length)
    else c :: replaceAll pat rep rest
termination_by l => l.length
decreasing_by
  · have hp : 0 < pat.length := List.length_pos.mpr h.1
    simp [List.length_drop]
    omega
  · simp

/-- Modelled from the spec: update the compare-link convention when present —
re-point the "Unreleased" compare link and emit one for the new version from
the host URL template found in the definition of the previous top version; when no
such definitions exist the document passes through unchanged (links are never
fabricated from nothing). -/
def updateCompareLinks (prevV newV : List Char) : List Node → List Node
  | [] => []
  | n :: rest =>
    match n with
    | .linkDefinition lab url =>
      if lab == strL "Unreleased" then
        .linkDefinition lab (replaceAll prevV newV url) ::
          updateCompareLinks prevV newV rest
      else if lab == prevV then
        .linkDefinition newV (replaceAll prevV newV url) :: n ::
          updateCompareLinks prevV newV rest
      else n :: updateCompareLinks prevV newV rest
    | _ => n :: updateCompareLinks prevV newV rest

/-- Modelled from the spec: the release transition — resolve the selector
(failing atomically on a resolution or out-of-order error), require the
"Unreleased" heading (structural precondition), rename it to
"{version} - {date}" keeping its body, insert a fresh "Unreleased" heading
and the five standard empty subsections above it, and update compare links
when the convention is present. -/
def release (doc : List Node) (sel : SemVer) (today : List Char)
    (pkg : Option (List Char)) : Except ReleaseError (List Node) :=
  match resolveVersion doc sel pkg with
  | .error e => .error e
  | .ok v =>
    match splitAtUnreleased doc with
    | none => .error .missingUnreleased
    | some (pre, _, post) =>
      let newHeading := Node.heading 2 (renderVersion v ++ ' ' :: '-' :: ' ' :: today)
      let d1 := pre ++ Node.heading 2 (strL "Unreleased") ::
        (stdSubsections ++ newHeading :: post)
      match highestReleased doc with
      | none => .ok d1
      | some hv => .ok (updateCompareLinks (renderVersion hv) (renderVersion v) d1)

instance {e a : Type} [DecidableEq e] [DecidableEq a] : DecidableEq (Except e a) := by
  intro x y
  cases x <;> cases y <;> first
    | (apply isFalse; intro hc; exact Except.noConfusion hc)
    | (rename_i u v
       exact match decEq u v with
         | isTrue hp => isTrue (by rw [hp])
         | isFalse hp => isFalse (fun hc => hp (by injection hc)))

/-- The stateful view of `release(&mut self)`: on success the document is
replaced by the transitioned one, on failure it is left exactly as parsed. -/
def releaseS (doc : List Node) (sel : SemVer) (today : List Char)
    (pkg : Option (List Char)) : List Node × Except ReleaseError Unit :=
  match release doc sel today pkg with
  | .ok d2 => (d2, .ok ())
  | .error e => (doc, .error e)

/-- C2: release is all-or-nothing — whenever any of its validations fails
(version resolution, out-of-order version, or the structural precondition on
the "Unreleased" heading), the resulting state holds the document exactly as
parsed, and the error is one of those validation failures. -/
theorem release_atomic (doc : List Node) (sel : SemVer) (today : List Char)
    (pkg : Option (List Char)) (e : ReleaseError)
    (h : (releaseS doc sel today pkg).2 = .error e) :
    (releaseS doc sel today pkg).1 = doc ∧
      (resolveVersion doc sel pkg = .error e ∨
        (e = .missingUnreleased ∧ splitAtUnreleased doc = none)) := by
  unfold releaseS at h ⊢
  cases hrel : release doc sel today pkg with
  | ok d2 => rw [hrel] at h; simp at h
  | error e2 =>
    rw [hrel] at h
    simp only [Except.error.injEq] at h
    subst h
    refine ⟨rfl, ?_⟩
    unfold release at hrel
    cases hres : resolveVersion doc sel pkg with
    | error e3 =>
      rw [hres] at hrel
      simp only [Except.error.injEq] at hrel
      subst hrel
      exact Or.inl rfl
    | ok v =>
      rw [hres] at hrel
      cases hsplit : splitAtUnreleased doc with
      | none =>
        rw [hsplit] at hrel
        simp only [Except.error.injEq] at hrel
        subst hrel
        exact Or.inr ⟨rfl, rfl⟩
      | some x =>
        rw [hsplit] at hrel
        rcases x with ⟨pre, hh, post⟩
        cases hhr : highestReleased doc <;> rw [hhr] at hrel <;> simp at hrel

/-- Witness for `release_atomic`: an explicit release on a document with no
"Unreleased" heading fails with the structural-precondition error and leaves
the document untouched. -/
theorem release_atomic_witness :
    (releaseS [Node.heading 1 (strL "Changelog")] (SemVer.explicit (strL "1.0.0"))
        (strL "2020-01-01") none).2 = .error .missingUnreleased ∧
      (releaseS [Node.heading 1 (strL "Changelog")] (SemVer.explicit (strL "1.0.0"))
        (strL "2020-01-01") none).1 = [Node.heading 1 (strL "Changelog")] :=
  ⟨by decide,
    (release_atomic [Node.heading 1 (strL "Changelog")]
      (SemVer.explicit (strL "1.0.0")) (strL "2020-01-01") none
      .missingUnreleased (by decide)).1⟩


theorem resolve_gt_released (doc : List Node) (sel : SemVer) (pkg : Option (List Char))
    (v : Version) (h : resolveVersion doc sel pkg = .ok v) :
    ∀ w ∈ releasedVersions doc, vlt w v := by
  intro w hw
  obtain ⟨hv, hhv, hge⟩ := highestReleased_ge doc w hw
  have hbase : baseVersion doc = hv := by simp [baseVersion, hhv]
  cases sel with
  | major =>
    simp only [resolveVersion, Except.ok.injEq] at h
    subst h
    rw [hbase]
    exact vlt_of_not_lt_of_lt w hv _ hge (by unfold vlt bumpMajor; simp)
  | minor =>
    simp only [resolveVersion, Except.ok.injEq] at h
    subst h
    rw [hbase]
    exact vlt_of_not_lt_of_lt w hv _ hge (by unfold vlt bumpMinor; simp)
  | patch =>
    simp only [resolveVersion, Except.ok.injEq] at h
    subst h
    rw [hbase]
    exact vlt_of_not_lt_of_lt w hv _ hge (by unfold vlt bumpPatch; simp)
  | infer =>
    rcases pkg with _ | s
    · simp [resolveVersion] at h
    · rcases hp : parseVersion s with _ | u
      · simp [resolveVersion, hp] at h
      · simp only [resolveVersion, hp, hhv] at h
        by_cases hlt : vlt hv u
        · rw [if_pos hlt] at h
          simp only [Except.ok.injEq] at h
          subst h
          exact vlt_of_not_lt_of_lt w hv u hge hlt
        · rw [if_neg hlt] at h
          simp at h
  | explicit s =>
    rcases hp : parseVersion s with _ | u
    · simp [resolveVersion, hp] at h
    · simp only [resolveVersion, hp, hhv] at h
      by_cases hlt : vlt hv u
      · rw [if_pos hlt] at h
        simp only [Except.ok.injEq] at h
        subst h
        exact vlt_of_not_lt_of_lt w hv u hge hlt
      · rw [if_neg hlt] at h
        simp at h

/-- C4: the version produced by a successful release is strictly greater than
every previously released version in the document; an explicit selector must
parse as a semantic version (else a resolution error) and be strictly greater
than the highest existing released version (else an out-of-order error). -/
theorem release_monotonic (doc : List Node) (sel : SemVer) (pkg : Option (List Char)) :
    (∀ today d2, release doc sel today pkg = .ok d2 →
      ∃ v, resolveVersion doc sel pkg = .ok v ∧ ∀ w ∈ releasedVersions doc, vlt w v) ∧
    (∀ s, sel = .explicit s → parseVersion s = none →
      resolveVersion doc sel pkg = .error .versionResolution) ∧
    (∀ s u hv, sel = .explicit s → parseVersion s = some u →
      highestReleased doc = some hv → ¬ vlt hv u →
      resolveVersion doc sel pkg = .error .outOfOrder) := by
  refine ⟨?_, ?_, ?_⟩
  · intro today d2 hrel
    unfold release at hrel
    cases hres : resolveVersion doc sel pkg with
    | error e => rw [hres] at hrel; simp at hrel
    | ok v => exact ⟨v, rfl, resolve_gt_released doc sel pkg v hres⟩
  · intro s hsel hp
    subst hsel
    simp [resolveVersion, hp]
  · intro s u hv hsel hp hhv hlt
    subst hsel
    simp [resolveVersion, hp, hhv, hlt]

/-- Witness for `release_monotonic` on a concrete document with one released
version 1.0.0: releasing explicit 2.0.0 succeeds above every released
version, "abc" fails to resolve, and 0.5.0 is out of order. -/
theorem release_monotonic_witness :
    (∃ v, resolveVersion [Node.heading 2 (strL "Unreleased"),
        Node.heading 2 (strL "1.0.0 - 2020-01-01")]
        (SemVer.explicit (strL "2.0.0")) none = .ok v ∧
      ∀ w ∈ releasedVersions [Node.heading 2 (strL "Unreleased"),
        Node.heading 2 (strL "1.0.0 - 2020-01-01")], vlt w v) ∧
    resolveVersion [Node.heading 2 (strL "Unreleased"),
      Node.heading 2 (strL "1.0.0 - 2020-01-01")]
      (SemVer.explicit (strL "abc")) none = .error .versionResolution ∧
    resolveVersion [Node.heading 2 (strL "Unreleased"),
      Node.heading 2 (strL "1.0.0 - 2020-01-01")]
      (SemVer.explicit (strL "0.5.0")) none = .error .outOfOrder := by
  refine ⟨?_, ?_, ?_⟩
  · exact (release_monotonic [Node.heading 2 (strL "Unreleased"),
      Node.heading 2 (strL "1.0.0 - 2020-01-01")]
      (SemVer.explicit (strL "2.0.0")) none).1 (strL "2020-02-02") _ rfl
  · exact (release_monotonic [Node.heading 2 (strL "Unreleased"),
      Node.heading 2 (strL "1.0.0 - 2020-01-01")]
      (SemVer.explicit (strL "abc")) none).2.1 (strL "abc") rfl (by decide)
  · exact (release_monotonic [Node.heading 2 (strL "Unreleased"),
      Node.heading 2 (strL "1.0.0 - 2020-01-01")]
      (SemVer.explicit (strL "0.5.0")) none).2.2 (strL "0.5.0") ⟨0, 5, 0, []⟩
      ⟨1, 0, 0, []⟩ rfl (by decide) (by decide) (by decide)

/-! ### The CLI driver (src/main.rs) -/

/-- The observable outcome of an entry command (`add`/`fix`/`change`/
`deprecate`/`remove`) in `main` (src/main.rs lines 161-238): the changelog is
persisted with a new document, or the process exits with code 1 when neither
link nor message is given, or the `unwrap` on the link resolver result aborts carrying
the resolver error, or the core reports a structural error. -/
inductive EntryOutcome (α : Type) : Type where
  | persisted (doc2 : List Node)
  | exitOne
  | failed (e : α)
  | structuralError
deriving DecidableEq

/-- Shallow embedding of the entry-command arm of `main` (src/main.rs lines
188-237): with a `--message` the text is inserted directly; otherwise a link
argument is resolved by the external GitHub-info collaborator, whose failure
aborts via `unwrap` carrying the error; with neither, the program prints a
hint and exits with code 1 before touching the document; after a successful
insertion the changelog is persisted. -/
def entryCommand {α : Type} (doc : List Node)
    (resolver : List Char → Except α (List Char))
    (link : Option (List Char)) (message : Option (List Char))
    (name : List Char) : EntryOutcome α :=
  match message with
  | some m =>
    match add_list_item_to_section doc name m with
    | some d2 => .persisted d2
    | none => .structuralError
  | none =>
    match link with
    | some l =>
      match resolver l with
      | .ok disp =>
        match add_list_item_to_section doc name disp with
        | some d2 => .persisted d2
        | none => .structuralError
      | .error e => .failed e
    | none => .exitOne

/-- C6: when the link resolver fails on an entry command, that collaborator
failure is surfaced verbatim — the outcome carries exactly the resolver's
error — and the changelog is never mutated or persisted. -/
theorem entry_link_failure {α : Type} (doc : List Node)
    (resolver : List Char → Except α (List Char)) (l : List Char)
    (name : List Char) (e : α) (h : resolver l = .error e) :
    entryCommand doc resolver (some l) none name = .failed e ∧
      ∀ d2, entryCommand doc resolver (some l) none name ≠ .persisted d2 := by
  constructor
  · simp [entryCommand, h]
  · intro d2
    simp [entryCommand, h]

/-- Witness for `entry_link_failure` with a concrete always-failing resolver. -/
theorem entry_link_failure_witness :
    entryCommand [Node.heading 2 (strL "Unreleased")]
        (fun _ => Except.error 42) (some (strL "badlink")) none (strL "Added") =
      .failed 42 ∧
      ∀ d2, entryCommand [Node.heading 2 (strL "Unreleased")]
        (fun _ => Except.error 42) (some (strL "badlink")) none (strL "Added") ≠
          .persisted d2 :=
  entry_link_failure [Node.heading 2 (strL "Unreleased")]
    (fun _ => Except.error 42) (strL "badlink") (strL "Added") 42 rfl

/-- C8: an entry command invoked with neither a link nor a message exits with
code 1 without mutating or persisting the changelog. -/
theorem entry_no_input_exits_one {α : Type} (doc : List Node)
    (resolver : List Char → Except α (List Char)) (name : List Char) :
    entryCommand doc resolver none none name = .exitOne ∧
      ∀ d2, entryCommand doc resolver none none name ≠ .persisted d2 := by
  constructor
  · rfl
  · intro d2
    simp [entryCommand]

/-- The externally observable events of the `Commands::Release` arm. -/
inductive Event : Type where
  | releaseOp (ok : Bool)
  | writeFile
  | gitAdd
  | gitCommit
  | npmVersion
deriving DecidableEq, Repr

/-- Shallow embedding of the `Commands::Release` arm of `main` (src/main.rs
lines 240-255): the release transition runs first (persisting the changelog
file on success, per the spec ordering); only when it succeeded and
`--with-npm` was passed are git stage, git commit and `npm version` invoked,
and a failed release short-circuits via `?` so they never run. -/
def releaseCommand (doc : List Node) (sel : SemVer) (today : List Char)
    (pkg : Option (List Char)) (withNpm : Bool) :
    List Event × Except ReleaseError Unit :=
  match release doc sel today pkg with
  | .error e => ([.releaseOp false], .error e)
  | .ok _ =>
    ([.releaseOp true, .writeFile] ++
      (if withNpm then [.gitAdd, .gitCommit, .npmVersion] else []), .ok ())

/-- C7: git stage and commit are invoked only after the release transition
completed successfully and the changelog file was written — strictly later in
the event trace — and when the release fails they are never invoked. -/
theorem release_git_ordering (doc : List Node) (sel : SemVer) (today : List Char)
    (pkg : Option (List Char)) (withNpm : Bool) :
    (∀ e, (releaseCommand doc sel today pkg withNpm).2 = .error e →
      Event.gitAdd ∉ (releaseCommand doc sel today pkg withNpm).1 ∧
      Event.gitCommit ∉ (releaseCommand doc sel today pkg withNpm).1) ∧
    ((Event.gitAdd ∈ (releaseCommand doc sel today pkg withNpm).1 ∨
      Event.gitCommit ∈ (releaseCommand doc sel today pkg withNpm).1) →
      (∃ d2, release doc sel today pkg = .ok d2) ∧
      (releaseCommand doc sel today pkg withNpm).1.take 2 =
        [Event.releaseOp true, Event.writeFile] ∧
      ∀ i, ((releaseCommand doc sel today pkg withNpm).1.get? i = some Event.gitAdd ∨
        (releaseCommand doc sel today pkg withNpm).1.get? i = some Event.gitCommit) →
        2 ≤ i) := by
  cases hrel : release doc sel today pkg with
  | error e2 =>
    constructor
    · intro e he
      simp [releaseCommand, hrel]
    · intro hmem
      simp [releaseCommand, hrel] at hmem
  | ok d2 =>
    constructor
    · intro e he
      simp [releaseCommand, hrel] at he
    · intro hmem
      refine ⟨⟨d2, rfl⟩, ?_, ?_⟩
      · cases withNpm <;> simp [releaseCommand, hrel]
      · intro i hi
        cases withNpm with
        | false =>
          exfalso
          simp [releaseCommand, hrel] at hi
          rcases hi with hi | hi <;>
            (rcases i with _ | _ | i <;> simp [List.get?] at hi)
        | true =>
          rcases i with _ | _ | i
          · exfalso
            simp [releaseCommand, hrel, List.get?] at hi
          · exfalso
            simp [releaseCommand, hrel, List.get?] at hi
          · omega

/-- Witness for `release_git_ordering`: a failing release never reaches git,
and a successful `--with-npm` release stages and commits only after the
transition and file write. -/
theorem release_git_ordering_witness :
    (Event.gitAdd ∉ (releaseCommand [Node.heading 1 (strL "Changelog")]
        (SemVer.explicit (strL "1.0.0")) (strL "2020-01-01") none true).1 ∧
      Event.gitCommit ∉ (releaseCommand [Node.heading 1 (strL "Changelog")]
        (SemVer.explicit (strL "1.0.0")) (strL "2020-01-01") none true).1) ∧
    (releaseCommand [Node.heading 2 (strL "Unreleased")]
        (SemVer.explicit (strL "1.0.0")) (strL "2020-01-01") none true).1.take 2 =
      [Event.releaseOp true, Event.writeFile] := by
  constructor
  · exact (release_git_ordering [Node.heading 1 (strL "Changelog")]
      (SemVer.explicit (strL "1.0.0")) (strL "2020-01-01") none true).1
      .missingUnreleased (by decide)
  · exact ((release_git_ordering [Node.heading 2 (strL "Unreleased")]
      (SemVer.explicit (strL "1.0.0")) (strL "2020-01-01") none true).2
      (Or.inl (by decide))).2.1

/-! ### Listing (spec section 4.4, src/main.rs lines 142-152 and 256) -/

/-- Modelled from the spec: the listing-amount selector. -/
inductive Amount : Type where
  | count (n : Nat)
  | all
deriving DecidableEq, Repr

/-- Modelled from the spec: parse the CLI amount value — "all" or a decimal
count (clap gives `--amount` the default literal "10"). -/
def parseAmount (s : List Char) : Option Amount :=
  if s == strL "all" then some .all
  else if s ≠ [] ∧ s.all Char.isDigit then some (.count (digitsToNat s)) else none

/-- The heading text of every released version section, in document order
(top of file = most recent, by construction). -/
def releasedHeadingTexts (doc : List Node) : List (List Char) :=
  doc.filterMap (fun n =>
    match n with
    | .heading lvl t =>
      if lvl == 2 && ! normEq t (strL "Unreleased") then some t else none
    | _ => none)

/-- Modelled from the spec: `list` walks release headings in document order
and returns at most `amount` formatted version+date strings, unbounded when
`all` (or the `--all` shorthand) is selected.  It is a pure read: it returns
strings and never touches the document. -/
def list (doc : List Node) (amount : Amount) (all : Bool) : List (List Char) :=
  if all then releasedHeadingTexts doc
  else
    match amount with
    | .all => releasedHeadingTexts doc
    | .count n => (releasedHeadingTexts doc).take n

/-- C9: `list` returns at most `amount` release headings, as the prefix of
the document-order heading list (top of file = most recent); `all` is
unbounded; on a document with 5 released versions, `Count 2` returns exactly
the 2 most recent. -/
theorem list_spec (doc : List Node) (n : Nat) (a : Amount) :
    (list doc (.count n) false).length ≤ n ∧
    list doc (.count n) false = (releasedHeadingTexts doc).take n ∧
    list doc a true = releasedHeadingTexts doc ∧
    ((releasedHeadingTexts doc).length = 5 → n = 2 →
      (list doc (.count n) false).length = 2 ∧
      list doc (.count n) false =
        [(releasedHeadingTexts doc).getD 0 [], (releasedHeadingTexts doc).getD 1 []]) := by
  refine ⟨?_, ?_, ?_, ?_⟩
  · simp [list]
  · simp [list]
  · simp [list]
  · intro h5 h2
    subst h2
    rcases hl : releasedHeadingTexts doc with _ | ⟨x, _ | ⟨y, rest⟩⟩
    · rw [hl] at h5; simp at h5
    · rw [hl] at h5; simp at h5
    · simp [list, hl]

/-- Witness for `list_spec` on a document with five released versions. -/
theorem list_spec_witness :
    list [Node.heading 2 (strL "Unreleased"),
        Node.heading 2 (strL "5.0.0 - 2020-05-01"),
        Node.heading 2 (strL "4.0.0 - 2020-04-01"),
        Node.heading 2 (strL "3.0.0 - 2020-03-01"),
        Node.heading 2 (strL "2.0.0 - 2020-02-01"),
        Node.heading 2 (strL "1.0.0 - 2020-01-01")] (Amount.count 2) false =
      [(releasedHeadingTexts [Node.heading 2 (strL "Unreleased"),
        Node.heading 2 (strL "5.0.0 - 2020-05-01"),
        Node.heading 2 (strL "4.0.0 - 2020-04-01"),
        Node.heading 2 (strL "3.0.0 - 2020-03-01"),
        Node.heading 2 (strL "2.0.0 - 2020-02-01"),
        Node.heading 2 (strL "1.0.0 - 2020-01-01")]).getD 0 [],
       (releasedHeadingTexts [Node.heading 2 (strL "Unreleased"),
        Node.heading 2 (strL "5.0.0 - 2020-05-01"),
        Node.heading 2 (strL "4.0.0 - 2020-04-01"),
        Node.heading 2 (strL "3.0.0 - 2020-03-01"),
        Node.heading 2 (strL "2.0.0 - 2020-02-01"),
        Node.heading 2 (strL "1.0.0 - 2020-01-01")]).getD 1 []] :=
  ((list_spec [Node.heading 2 (strL "Unreleased"),
    Node.heading 2 (strL "5.0.0 - 2020-05-01"),
    Node.heading 2 (strL "4.0.0 - 2020-04-01"),
    Node.heading 2 (strL "3.0.0 - 2020-03-01"),
    Node.heading 2 (strL "2.0.0 - 2020-02-01"),
    Node.heading 2 (strL "1.0.0 - 2020-01-01")] 2 Amount.all).2.2.2 (by decide) rfl).2

/-- C10: the `--amount` default literal of the list command "10" parses to
`Count 10`, and `all` defaults to false, so at most 10 version sections are
listed. -/
theorem list_default_amount :
    parseAmount (strL "10") = some (.count 10) ∧
    ∀ doc, (list doc (.count 10) false).length ≤ 10 := by
  constructor
  · decide
  · intro doc
    simp [list]


/-- Witness for `add_list_item_spec`: inserting "X" into the "Fixed"
subsection of a concrete parsed changelog. -/
theorem add_list_item_spec_witness :
    ∃ d2, add_list_item_to_section
        ([Node.heading 1 (strL "Changelog"), Node.blank] ++
          Node.heading 2 (strL "Unreleased") ::
          [Node.blank, Node.heading 3 (strL "Fixed"), Node.blank,
            Node.heading 2 (strL "1.0.0 - 2020-01-01")]) (strL "Fixed") (strL "X") =
        some d2 ∧
      subsectionBody d2 (strL "Fixed") =
        some (match subsectionBody ([Node.heading 1 (strL "Changelog"), Node.blank] ++
            Node.heading 2 (strL "Unreleased") ::
            [Node.blank, Node.heading 3 (strL "Fixed"), Node.blank,
              Node.heading 2 (strL "1.0.0 - 2020-01-01")]) (strL "Fixed") with
          | some b =>
            if b.isEmpty then [Node.blank, Node.listItem (strL "X")]
            else b ++ [Node.listItem (strL "X")]
          | none => Node.blank :: Node.listItem (strL "X") ::
              (([Node.blank, Node.heading 3 (strL "Fixed"), Node.blank,
                Node.heading 2 (strL "1.0.0 - 2020-01-01")].takeWhile
                  (notHeadingLE 2)).takeWhile (notHeadingLE 3))) ∧
      (∀ other, other ≠ strL "Fixed" →
        subsectionBody d2 other =
          subsectionBody ([Node.heading 1 (strL "Changelog"), Node.blank] ++
            Node.heading 2 (strL "Unreleased") ::
            [Node.blank, Node.heading 3 (strL "Fixed"), Node.blank,
              Node.heading 2 (strL "1.0.0 - 2020-01-01")]) other) ∧
      outsideUnreleased d2 =
        outsideUnreleased ([Node.heading 1 (strL "Changelog"), Node.blank] ++
          Node.heading 2 (strL "Unreleased") ::
          [Node.blank, Node.heading 3 (strL "Fixed"), Node.blank,
            Node.heading 2 (strL "1.0.0 - 2020-01-01")]) :=
  add_list_item_spec [Node.heading 1 (strL "Changelog"), Node.blank]
    (Node.heading 2 (strL "Unreleased"))
    [Node.blank, Node.heading 3 (strL "Fixed"), Node.blank,
      Node.heading 2 (strL "1.0.0 - 2020-01-01")]
    (strL "Fixed") (strL "X") (by decide) (by decide)

end Changelog
